import Mathlib

/-!
Threaded comments: pagination and tree building.

A shallow embedding of `graph/repository/inmemory_repository.go`,
`graph/repository/postgres_repository.go` and the `Comments` resolver of
`graph/resolver.go`, and the properties of the comment store, the paginator
and the thread builder.

Conventions of the embedding.

* A `*model.CommentWithReplies` is an address (`Ptr`) into a `Heap`; the
  `Replies` field of a cell holds addresses, so that
  `parent.Replies = append(parent.Replies, c)` is a heap update seen through
  every alias of `parent`, as in Go.
* A Go `map[string]V` is an association list with one entry per key. The order
  in which `range` visits a map is not fixed by the language; every function
  that ranges over a map takes the visiting order as an argument.
* `generateID()` and `time.Now().UTC().String()` are inputs of the operations
  that call them.
* `sort.Slice` belongs to the standard library; the functions that call it
  take the sorting routine as an argument, constrained by `SortSliceContract`.
* A run-time panic is the result `none`.
-/

namespace Forozon

/-! ## graph/model -/

/-- The record `model.Comment`. A nil `ParentID` is `none`. -/
structure Comment where
  ID : String
  PostID : String
  ParentID : Option String
  AuthorID : String
  Content : String
  CreatedAt : String
deriving DecidableEq, Repr, Inhabited

/-- An address of a `model.CommentWithReplies` value. -/
abbrev Ptr := Nat

/-- The record `model.CommentWithReplies`; `Replies` is a slice of pointers. -/
structure CommentWithReplies where
  ID : String
  PostID : String
  ParentID : Option String
  AuthorID : String
  Content : String
  CreatedAt : String
  Replies : List Ptr
deriving DecidableEq, Repr, Inhabited

/-- The record `model.Post`; `Comments` is a slice of pointers. -/
structure Post where
  ID : String
  Title : String
  Content : String
  AuthorID : String
  CreatedAt : String
  CommentsDisabled : Bool
  Comments : List Ptr
deriving DecidableEq, Repr, Inhabited

/-! ## Memory and maps -/

/-- The memory that `*model.CommentWithReplies` pointers point into. -/
abbrev Heap := Ptr → CommentWithReplies

/-- Write the cell at address `p`. -/
def Heap.store (h : Heap) (p : Ptr) (v : CommentWithReplies) : Heap :=
  fun q => if q = p then v else h q

/-- A heap together with its allocation frontier: every address below `next`
is in use. -/
structure Memory where
  heap : Heap
  next : Ptr

/-- The expression `&model.CommentWithReplies{...}`: a fresh cell. -/
def Memory.new (m : Memory) (v : CommentWithReplies) : Ptr × Memory :=
  (m.next, { heap := m.heap.store m.next v, next := m.next + 1 })

/-- A Go `map[string]V`. -/
abbrev GoMap (V : Type) := List (String × V)

/-- The expression `m[k]`, `none` when the key is absent. -/
def mapIndex {V : Type} (m : GoMap V) (k : String) : Option V :=
  (m.find? (fun e => decide (e.1 = k))).map Prod.snd

/-- The statement `m[k] = v`. -/
def mapAssign {V : Type} (m : GoMap V) (k : String) (v : V) : GoMap V :=
  (k, v) :: m.filter (fun e => decide (e.1 ≠ k))

/-- Go's `a < b` on strings: lexicographic comparison. -/
def strLess (a b : String) : Bool := decide (a.toList < b.toList)

/-! ## buildCommentTree (inmemory_repository.go) -/

/-- The statement `parent.Replies = append(parent.Replies, c)`. -/
def appendReply (h : Heap) (parent c : Ptr) : Heap :=
  h.store parent { h parent with Replies := (h parent).Replies ++ [c] }

/-- The first loop of `buildCommentTree`: `commentMap[c.ID] = c`. -/
def indexComments (h : Heap) (comments : List Ptr) : GoMap Ptr :=
  comments.foldl (fun m c => mapAssign m (h c).ID c) []

/-- One iteration of the second loop of `buildCommentTree`, on the pair of
`roots` and the heap. -/
def buildCommentTree.step (commentMap : GoMap Ptr) (acc : List Ptr × Heap) (c : Ptr) :
    List Ptr × Heap :=
  match (acc.2 c).ParentID with
  | none => (acc.1 ++ [c], acc.2)
  | some pid =>
    if pid = "" then (acc.1 ++ [c], acc.2)
    else
      match mapIndex commentMap pid with
      | some parent => (acc.1, appendReply acc.2 parent c)
      | none => (acc.1, acc.2)

/-- The function `buildCommentTree`: the returned roots and the heap after the
replies have been attached. -/
def buildCommentTree (h : Heap) (comments : List Ptr) : List Ptr × Heap :=
  let commentMap := indexComments h comments
  comments.foldl (buildCommentTree.step commentMap) ([], h)

/-! ## paginateComments (inmemory_repository.go) -/

/-- One iteration of the cursor loop of `paginateComments`, on the pair of
`filteredComments` and `found`. -/
def paginateComments.step (h : Heap) (cursor : String) (acc : List Ptr × Bool) (c : Ptr) :
    List Ptr × Bool :=
  let filteredComments := if acc.2 then acc.1 ++ [c] else acc.1
  let found := if (h c).ID = cursor then true else acc.2
  (filteredComments, found)

/-- The slice expression `comments[:limit]`, which panics when `limit` is
negative or exceeds the capacity. It is only evaluated with
`limit < len(comments)`. -/
def sliceTo (comments : List Ptr) (limit : Int) : Option (List Ptr) :=
  if limit < 0 then none
  else if (comments.length : Int) < limit then none
  else some (comments.take limit.toNat)

/-- The function `paginateComments`. -/
def paginateComments (h : Heap) (comments : List Ptr) (limit : Int) (cursor : Option String) :
    Option (List Ptr) :=
  let comments :=
    match cursor with
    | none => comments
    | some cur =>
      if cur ≠ "" then (comments.foldl (paginateComments.step h cur) ([], false)).1
      else comments
  if (comments.length : Int) > limit then sliceTo comments limit
  else some comments

/-- Drive `paginateComments` as a client does: fetch a page, pass the ID of its
last element as the next cursor, stop at the first empty page; the result is
the concatenation of the pages. `none` when a call panics or the fuel (a bound
on the number of calls) runs out. -/
def collectPages (h : Heap) (comments : List Ptr) (limit : Int) :
    Nat → Option String → Option (List Ptr)
  | 0, _ => none
  | fuel + 1, cursor =>
    match paginateComments h comments limit cursor with
    | none => none
    | some [] => some []
    | some (p :: page) =>
      (collectPages h comments limit fuel (some (h ((p :: page).getLast (by simp))).ID)).map
        (fun rest => (p :: page) ++ rest)

/-! ## sort.Slice (standard library) -/

/-- What `sort.Slice(x, less)` promises of the slice it leaves behind: a
rearrangement of the input in which no element is `less` than one before it,
provided "not less" is total and transitive (`less` is a strict weak order).
Nothing is promised about the relative order of elements neither of which is
`less` than the other: the sort is not stable. -/
def SortSliceContract (sortSlice : (Ptr → Ptr → Bool) → List Ptr → List Ptr) : Prop :=
  ∀ (less : Ptr → Ptr → Bool) (l : List Ptr),
    (sortSlice less l).Perm l ∧
    ((∀ a b, less a b = false ∨ less b a = false) →
      (∀ a b c, less b a = false → less c b = false → less c a = false) →
      (sortSlice less l).Pairwise (fun a b => less b a = false))

/-- The inner loop of the standard library's `insertionSort_func`,
`for j := i; j > a && less(j, j-1); j-- { swap(j, j-1) }`, on the sorted
part of the slice held in reverse (nearest element first). -/
def insertionSort.sink (less : Ptr → Ptr → Bool) (x : Ptr) : List Ptr → List Ptr
  | [] => [x]
  | y :: rest => if less x y then y :: insertionSort.sink less x rest else x :: y :: rest

/-- The standard library's `insertionSort_func`, which is what `sort.Slice`
runs on a slice of at most 12 elements. -/
def insertionSort (less : Ptr → Ptr → Bool) (l : List Ptr) : List Ptr :=
  (l.foldl (fun sorted x => insertionSort.sink less x sorted) []).reverse

/-! ## InMemoryRepository (inmemory_repository.go) -/

/-- The struct `InMemoryRepository`. -/
structure InMemoryRepository where
  posts : GoMap Post
  comments : GoMap Comment
deriving DecidableEq, Repr

/-- The constructor `NewInMemoryRepository`. -/
def NewInMemoryRepository : InMemoryRepository := { posts := [], comments := [] }

/-- The method `InMemoryRepository.CreatePost`; `id` is the value of
`generateID()` and `createdAt` that of `time.Now().UTC().String()`. -/
def InMemoryRepository.CreatePost (s : InMemoryRepository) (title content authorID : String)
    (commentsDisabled : Bool) (id createdAt : String) :
    Except String Post × InMemoryRepository :=
  if title = "" then (.error "title is required", s)
  else if content = "" then (.error "content is required", s)
  else if authorID = "" then (.error "authorID is required", s)
  else
    let post : Post :=
      { ID := id, Title := title, Content := content, AuthorID := authorID,
        CreatedAt := createdAt, CommentsDisabled := commentsDisabled, Comments := [] }
    (.ok post, { s with posts := mapAssign s.posts id post })

/-- The method `InMemoryRepository.AddComment`; `id` is the value of
`generateID()` and `createdAt` that of `time.Now().UTC().String()`. -/
def InMemoryRepository.AddComment (s : InMemoryRepository) (postID : String)
    (parentID : Option String) (authorID content : String) (id createdAt : String) :
    Except String Comment × InMemoryRepository :=
  if authorID = "" then (.error "authorID is required", s)
  else if content = "" then (.error "content is required", s)
  else
    match mapIndex s.posts postID with
    | none => (.error "post not found", s)
    | some post =>
      if post.CommentsDisabled then (.error "comments are disabled for this post", s)
      else if parentID.any (fun pid => (mapIndex s.comments pid).isNone) then
        (.error "comments parenID is not found", s)
      else
        let comment : Comment :=
          { ID := id, PostID := postID, ParentID := parentID, AuthorID := authorID,
            Content := content, CreatedAt := createdAt }
        (.ok comment, { s with comments := mapAssign s.comments id comment })

/-- The literal `&model.CommentWithReplies{...}` that copies the fields of a
stored comment, with the given `Replies`. -/
def Comment.withReplies (c : Comment) (replies : List Ptr) : CommentWithReplies :=
  { ID := c.ID, PostID := c.PostID, ParentID := c.ParentID, AuthorID := c.AuthorID,
    Content := c.Content, CreatedAt := c.CreatedAt, Replies := replies }

/-- One iteration of the loop of `GetCommentsForPost` over `s.comments`. -/
def InMemoryRepository.GetCommentsForPost.collect (postID : String)
    (acc : List Ptr × Memory) (c : Comment) : List Ptr × Memory :=
  if c.PostID = postID then
    let r := acc.2.new (c.withReplies [])
    (acc.1 ++ [r.1], r.2)
  else acc

/-- The comparison handed to `sort.Slice` by `GetCommentsForPost`. -/
def lessCreatedAt (h : Heap) (a b : Ptr) : Bool := strLess (h a).CreatedAt (h b).CreatedAt

/-- The method `InMemoryRepository.GetCommentsForPost` up to the call of
`buildCommentTree`: the paginated flat slice and the memory it points into.
`visit` is the sequence of values that `range s.comments` yields. -/
def InMemoryRepository.GetCommentsForPost.page
    (sortSlice : (Ptr → Ptr → Bool) → List Ptr → List Ptr) (visit : List Comment)
    (mem : Memory) (postID : String) (limit : Int) (cursor : Option String) :
    Option (List Ptr × Memory) :=
  let r := visit.foldl (InMemoryRepository.GetCommentsForPost.collect postID) ([], mem)
  let comments := sortSlice (lessCreatedAt r.2.heap) r.1
  (paginateComments r.2.heap comments limit cursor).map (fun page => (page, r.2))

/-- The method `InMemoryRepository.GetCommentsForPost`: the returned pair of
forest and error, and the memory afterwards. -/
def InMemoryRepository.GetCommentsForPost
    (sortSlice : (Ptr → Ptr → Bool) → List Ptr → List Ptr) (visit : List Comment)
    (mem : Memory) (postID : String) (limit : Int) (cursor : Option String) :
    Option (Except String (List Ptr) × Memory) :=
  (InMemoryRepository.GetCommentsForPost.page sortSlice visit mem postID limit cursor).map
    (fun r =>
      let t := buildCommentTree r.2.heap r.1
      (.ok t.1, { r.2 with heap := t.2 }))

/-- One iteration of the loop of `getRepliesForComment`. -/
def InMemoryRepository.getRepliesForComment.step (commentID : String)
    (acc : List Ptr × Memory) (comment : Comment) : List Ptr × Memory :=
  match comment.ParentID with
  | none => acc
  | some pid =>
    if pid = commentID then
      let r := acc.2.new (comment.withReplies [])
      (acc.1 ++ [r.1], r.2)
    else acc

/-- The method `InMemoryRepository.getRepliesForComment`; `visit` is the
sequence of values that `range s.comments` yields. -/
def InMemoryRepository.getRepliesForComment (visit : List Comment) (mem : Memory)
    (commentID : String) : List Ptr × Memory :=
  visit.foldl (InMemoryRepository.getRepliesForComment.step commentID) ([], mem)

/-- One iteration of the loop of `InMemoryRepository.GetPostByID`;
`visitReplies id` is the order in which the call `getRepliesForComment(id)`
ranges over `s.comments`. -/
def InMemoryRepository.GetPostByID.step (visitReplies : String → List Comment) (id : String)
    (acc : List Ptr × Memory) (comment : Comment) : List Ptr × Memory :=
  if comment.PostID = id then
    let replies := InMemoryRepository.getRepliesForComment (visitReplies comment.ID) acc.2 comment.ID
    let r := replies.2.new (comment.withReplies replies.1)
    (acc.1 ++ [r.1], r.2)
  else acc

/-- The method `InMemoryRepository.GetPostByID`: the result, the store (the
stored post now carries the comments) and the memory afterwards. `visit` is the
sequence of values that the loop over `s.comments` yields. -/
def InMemoryRepository.GetPostByID (s : InMemoryRepository) (visit : List Comment)
    (visitReplies : String → List Comment) (mem : Memory) (id : String) :
    Except String Post × InMemoryRepository × Memory :=
  match mapIndex s.posts id with
  | none => (.error "post not found", s, mem)
  | some post =>
    let r := visit.foldl (InMemoryRepository.GetPostByID.step visitReplies id) ([], mem)
    let post := { post with Comments := r.1 }
    (.ok post, { s with posts := mapAssign s.posts id post }, r.2)

/-- A store state reached from the empty store by `CreatePost` and `AddComment`
calls, whatever their arguments, generated IDs, timestamps and outcomes. -/
inductive InMemoryRepository.Reachable : InMemoryRepository → Prop where
  | init : InMemoryRepository.Reachable NewInMemoryRepository
  | createPost (s : InMemoryRepository) (title content authorID : String)
      (commentsDisabled : Bool) (id createdAt : String) :
      InMemoryRepository.Reachable s →
      InMemoryRepository.Reachable
        (s.CreatePost title content authorID commentsDisabled id createdAt).2
  | addComment (s : InMemoryRepository) (postID : String) (parentID : Option String)
      (authorID content : String) (id createdAt : String) :
      InMemoryRepository.Reachable s →
      InMemoryRepository.Reachable (s.AddComment postID parentID authorID content id createdAt).2

/-! ## The forest a client sees -/

/-- A comment with its replies unfolded: what the pointer structure rooted at
a `*model.CommentWithReplies` serialises to. -/
inductive CommentNode where
  | mk (ID PostID : String) (ParentID : Option String) (AuthorID Content CreatedAt : String)
      (Replies : List CommentNode)
deriving Repr

/-- Unfold the pointer structure below `p`, following `Replies` to depth at
most `fuel`; `none` when the structure is deeper than that. -/
def readback (h : Heap) : Nat → Ptr → Option CommentNode
  | 0, _ => none
  | fuel + 1, p =>
    ((h p).Replies.mapM (readback h fuel)).map
      (CommentNode.mk (h p).ID (h p).PostID (h p).ParentID (h p).AuthorID (h p).Content
        (h p).CreatedAt)

/-! ## PostgresRepository (postgres_repository.go) -/

/-- A row of the `posts` table. -/
structure PostRow where
  id : String
  title : String
  content : String
  authorID : String
  commentsDisabled : Bool
  createdAt : String
deriving DecidableEq, Repr

/-- Modelled from the spec: the database behind `PostgresRepository.conn`. The
migration that declares the tables is not among the sources; the spec gives a
`posts` table (`id`, `title`, `content`, `authorID`, `commentsDisabled`,
`createdAt`) and a `comments` table (`id`, `postID`, `parentID` nullable,
`authorID`, `content`, `createdAt`) whose `parentID` and `postID` are informal
foreign keys, enforced by no database constraint. A row of `comments` is a
`Comment`, a NULL `parentID` being `none`. Connection and transaction failures
are not modelled: `Begin`, `Exec`, `Query` and `Commit` succeed, and a `SELECT`
returns the matching rows in table order. -/
structure PostgresRepository where
  posts : List PostRow
  comments : List Comment
deriving DecidableEq, Repr

/-- One iteration of the second loop of `buildCommentHierarchy`. -/
def buildCommentHierarchy.step (m : GoMap Ptr) (acc : List Ptr × Heap) (c : Ptr) :
    List Ptr × Heap :=
  match (acc.2 c).ParentID with
  | none => (acc.1 ++ [c], acc.2)
  | some pid =>
    match mapIndex m pid with
    | some parent => (acc.1, appendReply acc.2 parent c)
    | none => (acc.1, acc.2)

/-- The function `buildCommentHierarchy`. -/
def buildCommentHierarchy (h : Heap) (comments : List Ptr) : List Ptr × Heap :=
  let m := indexComments h comments
  comments.foldl (buildCommentHierarchy.step m) ([], h)

/-- One iteration of the scan loop of `GetCommentsByPostID`: a fresh
`model.CommentWithReplies` filled from the row. -/
def PostgresRepository.GetCommentsByPostID.scan (acc : List Ptr × Memory) (row : Comment) :
    List Ptr × Memory :=
  let r := acc.2.new (row.withReplies [])
  (acc.1 ++ [r.1], r.2)

/-- The method `PostgresRepository.GetCommentsByPostID`. -/
def PostgresRepository.GetCommentsByPostID (s : PostgresRepository) (mem : Memory)
    (postID : String) : Except String (List Ptr) × Memory :=
  let rows := s.comments.filter (fun row => decide (row.PostID = postID))
  let r := rows.foldl PostgresRepository.GetCommentsByPostID.scan ([], mem)
  let t := buildCommentHierarchy r.2.heap r.1
  (.ok t.1, { r.2 with heap := t.2 })

/-- The method `PostgresRepository.GetPostByID`; the result `.ok none` is the
pair of a nil post and a nil error returned when no row matches. -/
def PostgresRepository.GetPostByID (s : PostgresRepository) (mem : Memory) (id : String) :
    Except String (Option Post) × Memory :=
  match s.posts.find? (fun row => decide (row.id = id)) with
  | none => (.ok none, mem)
  | some row =>
    match s.GetCommentsByPostID mem id with
    | (.error err, mem) => (.error ("failed to retrieve comments: " ++ err), mem)
    | (.ok comments, mem) =>
      (.ok (some { ID := row.id, Title := row.title, Content := row.content,
                   AuthorID := row.authorID, CreatedAt := row.createdAt,
                   CommentsDisabled := row.commentsDisabled, Comments := comments }), mem)

/-- The method `PostgresRepository.AddComment`; `id` is the value of
`generateID()` and `createdAt` that of `time.Now().UTC().String()`. -/
def PostgresRepository.AddComment (s : PostgresRepository) (mem : Memory) (postID : String)
    (parentID : Option String) (authorID content : String) (id createdAt : String) :
    Except String Comment × PostgresRepository × Memory :=
  if authorID = "" then (.error "authorID is required", s, mem)
  else if content = "" then (.error "content is required", s, mem)
  else
    match s.GetPostByID mem postID with
    | (.error err, mem) => (.error ("failed to get post for comment: " ++ err), s, mem)
    | (.ok none, mem) => (.error "post for comment not found", s, mem)
    | (.ok (some post), mem) =>
      if post.CommentsDisabled then (.error "comments are disabled for this post", s, mem)
      else
        let comment : Comment :=
          { ID := id, PostID := postID, ParentID := parentID, AuthorID := authorID,
            Content := content, CreatedAt := createdAt }
        (.ok comment, { s with comments := s.comments ++ [comment] }, mem)

/-! ## queryResolver.Comments (resolver.go) -/

/-- The record `model.PageInfo`. -/
structure PageInfo where
  HasNextPage : Bool
  EndCursor : Option String
deriving DecidableEq, Repr

/-- The record `model.CommentConnection`. -/
structure CommentConnection where
  Edges : List Ptr
  PageInfo : Forozon.PageInfo
deriving DecidableEq, Repr

/-- The value of `limitInt` that `queryResolver.Comments` passes to the
storage: `int(*limit)` when the argument is set, 0 otherwise, and 1000 in
place of 0. The argument is an `int32`, which `int` holds without loss. -/
def queryResolver.Comments.limitInt (limit : Option Int) : Int :=
  let limitInt : Int :=
    match limit with
    | none => 0
    | some l => l
  if limitInt = 0 then 1000 else limitInt

/-- The method `queryResolver.Comments`; `GetCommentsForPost` is the method of
the `Storage` the resolver holds, `σ` what that call leaves behind. -/
def queryResolver.Comments {σ : Type}
    (GetCommentsForPost : String → Int → Option String → Option (Except String (List Ptr) × σ))
    (postID : String) (limit : Option Int) (cursor : Option String) :
    Option (Except String CommentConnection × σ) :=
  (GetCommentsForPost postID (queryResolver.Comments.limitInt limit) cursor).map
    (fun r =>
      match r.1 with
      | .error err => (.error err, r.2)
      | .ok comments =>
        (.ok { Edges := comments, PageInfo := { HasNextPage := false, EndCursor := none } },
         r.2))

/-! ## Vocabulary of the properties -/

/-- The root test of `buildCommentTree`: `c.ParentID == nil || *c.ParentID == ""`. -/
def isRootComment (c : CommentWithReplies) : Bool :=
  match c.ParentID with
  | none => true
  | some pid => decide (pid = "")

/-- The comment `c` is a reply to the comment whose ID is `id`: its `ParentID`
is set, non-empty and equal to `id`. -/
def isReplyTo (c : CommentWithReplies) (id : String) : Bool :=
  match c.ParentID with
  | none => false
  | some pid => decide (pid ≠ "") && decide (pid = id)

/-- In the second loop of `buildCommentTree` with the map `m`, the comment at
`c` is appended to the `Replies` of the cell at `p`. -/
def attachesTo (m : GoMap Ptr) (h : Heap) (p c : Ptr) : Bool :=
  match (h c).ParentID with
  | none => false
  | some pid => decide (pid ≠ "") && decide (mapIndex m pid = some p)

/-- Go's `a <= b` on strings. -/
def strLessEq (a b : String) : Bool := !strLess b a

/-- The slice is in ascending `CreatedAt` order: the `CreatedAt` of an element
is less than or equal to that of every element after it. -/
def SortedByCreatedAt (h : Heap) (l : List Ptr) : Prop :=
  l.Pairwise (fun a b => strLessEq (h a).CreatedAt (h b).CreatedAt = true)

instance (h : Heap) (l : List Ptr) : Decidable (SortedByCreatedAt h l) := by
  unfold SortedByCreatedAt
  infer_instance

/-- The cursor-filtered list of `paginateComments`: with a non-empty cursor,
the elements after the first one whose ID is the cursor (none when no ID is);
the whole list otherwise. -/
def afterCursor (h : Heap) (comments : List Ptr) (cursor : Option String) : List Ptr :=
  match cursor with
  | none => comments
  | some cur =>
    if cur ≠ "" then (comments.dropWhile (fun c => decide ((h c).ID ≠ cur))).drop 1
    else comments

/-! ## Example data -/

/-- A cell without replies. -/
def flatCell (id postID : String) (parentID : Option String) (createdAt : String) :
    CommentWithReplies :=
  { ID := id, PostID := postID, ParentID := parentID, AuthorID := "u", Content := "x",
    CreatedAt := createdAt, Replies := [] }

/-- A heap holding the given cells at the addresses 0, 1, 2, ... -/
def heapOf (cells : List CommentWithReplies) : Heap := fun p => cells.getD p default

/-- Two comments of one page: "a" is a root, "b" replies to a comment "zz"
that is not on the page. -/
def orphanHeap : Heap :=
  heapOf [flatCell "a" "p" none "1", flatCell "b" "p" (some "zz") "2"]

/-- A thread of three: "b" replies to "a", "c" replies to "b", and "d" is a
second root with an empty-string parent. -/
def threadHeap : Heap :=
  heapOf [flatCell "a" "p" none "1", flatCell "b" "p" (some "a") "2",
          flatCell "c" "p" (some "b") "3", flatCell "d" "p" (some "") "4"]

/-- A memory in which nothing has been allocated yet. -/
def emptyMemory : Memory := { heap := fun _ => default, next := 0 }

/-- The store after creating the posts "p1" and "p2" (comments enabled),
adding the comment "c1" to "p1", and adding to "p2" the comment "c2" with
"c1" as its parent. -/
def crossPostStore : InMemoryRepository :=
  ((((NewInMemoryRepository.CreatePost "t" "c" "u" false "p1" "t0").2.CreatePost
      "t" "c" "u" false "p2" "t1").2.AddComment
      "p1" none "u" "a" "c1" "t2").2.AddComment
      "p2" (some "c1") "u" "b" "c2" "t3").2

/-- The store after creating the post "p1" (comments enabled) and adding to it
the comment "c1", the reply "c2" to "c1" and the reply "c3" to "c2". -/
def threadStore : InMemoryRepository :=
  ((((NewInMemoryRepository.CreatePost "t" "c" "u" false "p1" "t0").2.AddComment
      "p1" none "u" "a" "c1" "t1").2.AddComment
      "p1" (some "c1") "u" "b" "c2" "t2").2.AddComment
      "p1" (some "c2") "u" "c" "c3" "t3").2

/-- The comments of `threadStore` in creation order. -/
def threadVisit : List Comment :=
  [{ ID := "c1", PostID := "p1", ParentID := none, AuthorID := "u", Content := "a",
     CreatedAt := "t1" },
   { ID := "c2", PostID := "p1", ParentID := some "c1", AuthorID := "u", Content := "b",
     CreatedAt := "t2" },
   { ID := "c3", PostID := "p1", ParentID := some "c2", AuthorID := "u", Content := "c",
     CreatedAt := "t3" }]

/-- The store holding the single post "p1" with comments disabled. -/
def lockedStore : InMemoryRepository :=
  (NewInMemoryRepository.CreatePost "t" "c" "u" true "p1" "t0").2

/-- The answer of `InMemoryRepository.GetPostByID` as a client sees it: the
forest attached to the returned post, `none` when the call fails. -/
def InMemoryRepository.GetPostByID.forest (s : InMemoryRepository) (visit : List Comment)
    (visitReplies : String → List Comment) (mem : Memory) (id : String) :
    Option (List CommentNode) :=
  match s.GetPostByID visit visitReplies mem id with
  | (.ok post, _, mem) => post.Comments.mapM (readback mem.heap (visit.length + 1))
  | (.error _, _, _) => none

/-- A database holding the single post "p1" (comments enabled) and no
comment. -/
def onePostDatabase : PostgresRepository :=
  { posts := [{ id := "p1", title := "t", content := "c", authorID := "u",
                commentsDisabled := false, createdAt := "t0" }],
    comments := [] }

/-- The store after creating the post "p1" and adding to it the comments "a"
and "b", both stamped with the same CreatedAt. -/
def tieStore : InMemoryRepository :=
  (((NewInMemoryRepository.CreatePost "t" "c" "u" false "p1" "t0").2.AddComment
      "p1" none "u" "x" "a" "t1").2.AddComment
      "p1" none "u" "x" "b" "t1").2

/-- The comments of `tieStore`, "a" first. -/
def tieVisit : List Comment :=
  [{ ID := "a", PostID := "p1", ParentID := none, AuthorID := "u", Content := "x",
     CreatedAt := "t1" },
   { ID := "b", PostID := "p1", ParentID := none, AuthorID := "u", Content := "x",
     CreatedAt := "t1" }]

/-- The flat page of `GetCommentsForPost` as the cells it points to. -/
def InMemoryRepository.GetCommentsForPost.pageCells
    (sortSlice : (Ptr → Ptr → Bool) → List Ptr → List Ptr) (visit : List Comment)
    (mem : Memory) (postID : String) (limit : Int) (cursor : Option String) :
    Option (List CommentWithReplies) :=
  (InMemoryRepository.GetCommentsForPost.page sortSlice visit mem postID limit cursor).map
    (fun r => r.1.map r.2.heap)

/-! ## Maps -/

theorem mapIndex_filter_ne {V : Type} (m : GoMap V) (k k' : String) (hk : k ≠ k') :
    mapIndex (m.filter (fun e => decide (e.1 ≠ k))) k' = mapIndex m k' := by
  induction m with
  | nil => rfl
  | cons e m ih =>
    unfold mapIndex at ih ⊢
    by_cases h1 : e.1 = k
    · have h2 : ¬ e.1 = k' := fun h => hk (h1 ▸ h)
      rw [List.filter_cons_of_neg (by simpa using h1), List.find?_cons_of_neg _ (by simpa using h2)]
      exact ih
    · rw [List.filter_cons_of_pos (by simpa using h1)]
      by_cases h2 : e.1 = k'
      · rw [List.find?_cons_of_pos _ (by simpa using h2), List.find?_cons_of_pos _ (by simpa using h2)]
      · rw [List.find?_cons_of_neg _ (by simpa using h2), List.find?_cons_of_neg _ (by simpa using h2)]
        exact ih

theorem mapIndex_mapAssign {V : Type} (m : GoMap V) (k k' : String) (v : V) :
    mapIndex (mapAssign m k v) k' = if k = k' then some v else mapIndex m k' := by
  by_cases hk : k = k'
  · simp [mapIndex, mapAssign, hk]
  · have := mapIndex_filter_ne m k k' hk
    unfold mapIndex at this ⊢
    simp [mapAssign, List.find?_cons, hk]
    simpa using this

theorem mapIndex_foldl_mapAssign (h : Heap) (cs : List Ptr) (m : GoMap Ptr) (k : String) :
    mapIndex (cs.foldl (fun m c => mapAssign m (h c).ID c) m) k =
      ((cs.reverse.find? (fun p => decide ((h p).ID = k))).or (mapIndex m k)) := by
  induction cs generalizing m with
  | nil => simp
  | cons c cs ih =>
    rw [List.foldl_cons, ih, mapIndex_mapAssign, List.reverse_cons, List.find?_append]
    by_cases hc : (h c).ID = k
    · simp [hc]
      cases List.find? (fun p => decide ((h p).ID = k)) cs.reverse <;> simp
    · simp [hc]

theorem mapIndex_indexComments (h : Heap) (cs : List Ptr) (k : String) :
    mapIndex (indexComments h cs) k = cs.reverse.find? (fun p => decide ((h p).ID = k)) := by
  unfold indexComments
  rw [mapIndex_foldl_mapAssign]
  cases List.find? (fun p => decide ((h p).ID = k)) cs.reverse <;> simp [mapIndex]



theorem buildCommentTree_foldl (m : GoMap Ptr) (h : Heap) (cs : List Ptr) :
    (cs.foldl (buildCommentTree.step m) ([], h)).1 = cs.filter (fun c => isRootComment (h c)) ∧
    ∀ p, (cs.foldl (buildCommentTree.step m) ([], h)).2 p =
      { h p with Replies := (h p).Replies ++ cs.filter (fun c => attachesTo m h p c) } := by
  induction cs using List.reverseRecOn with
  | nil => exact ⟨rfl, fun p => by simp⟩
  | append_singleton cs c ih =>
    obtain ⟨ih1, ih2⟩ := ih
    rw [List.foldl_append, List.foldl_cons, List.foldl_nil]
    generalize cs.foldl (buildCommentTree.step m) ([], h) = r at ih1 ih2
    have hpar : (r.2 c).ParentID = (h c).ParentID := by rw [ih2 c]
    unfold buildCommentTree.step
    rw [hpar]
    cases hc : (h c).ParentID with
    | none =>
      refine ⟨?_, fun p => ?_⟩
      · simp [List.filter_append, isRootComment, hc, ih1]
      · simp [List.filter_append, attachesTo, hc, ih2 p]
    | some pid =>
      by_cases he : pid = ""
      · refine ⟨?_, fun p => ?_⟩
        · simp [List.filter_append, isRootComment, hc, ih1, he]
        · simp [List.filter_append, attachesTo, hc, ih2 p, he]
      · cases hm : mapIndex m pid with
        | none =>
          refine ⟨?_, fun p => ?_⟩
          · simp [List.filter_append, isRootComment, hc, ih1, he, hm]
          · simp [List.filter_append, attachesTo, hc, ih2 p, he, hm]
        | some parent =>
          refine ⟨?_, fun p => ?_⟩
          · simp [List.filter_append, isRootComment, hc, ih1, he, hm]
          · by_cases hp : p = parent
            · subst hp
              simp [List.filter_append, attachesTo, hc, ih2 p, he, hm, appendReply, Heap.store]
            · have hp' : ¬ parent = p := fun e => hp e.symm
              simp [List.filter_append, attachesTo, hc, ih2 p, he, hm, appendReply, Heap.store, hp, hp']

/-! ## buildCommentTree -/

theorem find?_eq_some_of_nodup_map {α β : Type} [DecidableEq β] (f : α → β) (l : List α)
    (hnd : (l.map f).Nodup) (k : β) (p : α) :
    l.find? (fun q => decide (f q = k)) = some p ↔ p ∈ l ∧ f p = k := by
  constructor
  · intro hf
    exact ⟨List.mem_of_find?_eq_some hf, by simpa using List.find?_some hf⟩
  · rintro ⟨hp, hk⟩
    cases hq : l.find? (fun q => decide (f q = k)) with
    | none =>
      have := List.find?_eq_none.mp hq p hp
      simp [hk] at this
    | some q =>
      have hq1 : q ∈ l := List.mem_of_find?_eq_some hq
      have hq2 : f q = k := by simpa using List.find?_some hq
      have : q = p := List.inj_on_of_nodup_map hnd hq1 hp (hq2.trans hk.symm)
      rw [this]

theorem attachesTo_indexComments (h : Heap) (cs : List Ptr)
    (hid : (cs.map (fun p => (h p).ID)).Nodup) (p c : Ptr) :
    attachesTo (indexComments h cs) h p c = (decide (p ∈ cs) && isReplyTo (h c) (h p).ID) := by
  have hrev : (cs.reverse.map (fun p => (h p).ID)).Nodup := by
    rw [List.map_reverse]; exact List.nodup_reverse.mpr hid
  have key : ∀ pid, mapIndex (indexComments h cs) pid = some p ↔ p ∈ cs ∧ (h p).ID = pid := by
    intro pid
    rw [mapIndex_indexComments, find?_eq_some_of_nodup_map (fun p => (h p).ID) _ hrev]
    simp
  unfold attachesTo isReplyTo
  cases (h c).ParentID with
  | none => simp
  | some pid =>
    by_cases he : pid = ""
    · simp [he]
    · by_cases hk : mapIndex (indexComments h cs) pid = some p
      · have := (key pid).mp hk
        simp [he, hk, this.1, this.2]
      · have : ¬ (p ∈ cs ∧ (h p).ID = pid) := fun hh => hk ((key pid).mpr hh)
        by_cases hp : p ∈ cs
        · have hne : ¬ pid = (h p).ID := fun e => this ⟨hp, e.symm⟩
          simp [he, hk, hp, hne]
        · simp [he, hk, hp]

theorem attachesTo_mem (h : Heap) (cs : List Ptr) (p c : Ptr)
    (ha : attachesTo (indexComments h cs) h p c = true) : p ∈ cs := by
  unfold attachesTo at ha
  cases hc : (h c).ParentID with
  | none => simp [hc] at ha
  | some pid =>
    simp only [hc, Bool.and_eq_true, decide_eq_true_eq] at ha
    have := ha.2
    rw [mapIndex_indexComments] at this
    exact List.mem_reverse.mp (List.mem_of_find?_eq_some this)

theorem buildCommentTree_fst (h : Heap) (cs : List Ptr) :
    (buildCommentTree h cs).1 = cs.filter (fun c => isRootComment (h c)) :=
  (buildCommentTree_foldl (indexComments h cs) h cs).1

theorem buildCommentTree_snd (h : Heap) (cs : List Ptr) (p : Ptr) :
    (buildCommentTree h cs).2 p =
      { h p with
        Replies := (h p).Replies ++ cs.filter (fun c => attachesTo (indexComments h cs) h p c) } :=
  (buildCommentTree_foldl (indexComments h cs) h cs).2 p

theorem buildCommentTree_createdAt (h : Heap) (cs : List Ptr) (p : Ptr) :
    ((buildCommentTree h cs).2 p).CreatedAt = (h p).CreatedAt := by
  rw [buildCommentTree_snd]

/-- C1 (as amended): a comment of the list whose ParentID is nil or the empty
string is an element of the root list returned by buildCommentTree; a comment
whose ParentID is non-empty is never a root, and when that ParentID is the ID
of no comment of the list the comment is appended to no Replies list either,
so it is absent from the returned forest. -/
theorem buildCommentTree_root_classification (h : Heap) (comments : List Ptr) (c : Ptr)
    (hc : c ∈ comments) :
    (((h c).ParentID = none ∨ (h c).ParentID = some "") →
      c ∈ (buildCommentTree h comments).1) ∧
    (∀ pid, (h c).ParentID = some pid → pid ≠ "" →
      c ∉ (buildCommentTree h comments).1 ∧
      ((∀ q ∈ comments, (h q).ID ≠ pid) →
        ∀ p, c ∈ ((buildCommentTree h comments).2 p).Replies → c ∈ (h p).Replies)) := by
  refine ⟨fun hroot => ?_, fun pid hpid hne => ⟨?_, fun habs p hmem => ?_⟩⟩
  · rw [buildCommentTree_fst, List.mem_filter]
    refine ⟨hc, ?_⟩
    rcases hroot with h1 | h1 <;> simp [isRootComment, h1]
  · rw [buildCommentTree_fst, List.mem_filter]
    rintro ⟨_, h2⟩
    simp [isRootComment, hpid, hne] at h2
  · rw [buildCommentTree_snd] at hmem
    simp only [List.mem_append, List.mem_filter] at hmem
    rcases hmem with h1 | ⟨_, h2⟩
    · exact h1
    · exfalso
      unfold attachesTo at h2
      simp only [hpid, Bool.and_eq_true, decide_eq_true_eq] at h2
      have h3 := h2.2
      rw [mapIndex_indexComments] at h3
      have h4 := List.mem_reverse.mp (List.mem_of_find?_eq_some h3)
      have h5 : (h p).ID = pid := by simpa using List.find?_some h3
      exact habs p h4 h5

/-- Witness for C1 (as amended): in the thread example the root "a" is
returned as a root. -/
theorem buildCommentTree_root_classification_witness :
    (0 : Ptr) ∈ [0, 1, 2, 3] ∧
    ((((threadHeap 0).ParentID = none ∨ (threadHeap 0).ParentID = some "") →
      0 ∈ (buildCommentTree threadHeap [0, 1, 2, 3]).1) ∧
    (∀ pid, (threadHeap 0).ParentID = some pid → pid ≠ "" →
      0 ∉ (buildCommentTree threadHeap [0, 1, 2, 3]).1 ∧
      ((∀ q ∈ [0, 1, 2, 3], (threadHeap q).ID ≠ pid) →
        ∀ p, 0 ∈ ((buildCommentTree threadHeap [0, 1, 2, 3]).2 p).Replies →
          0 ∈ (threadHeap p).Replies))) :=
  ⟨by decide, buildCommentTree_root_classification threadHeap [0, 1, 2, 3] 0 (by decide)⟩

/-- C1 (counterexample): on a page of two comments with distinct IDs, the
comment "b" names as parent the ID "zz" that no comment of the page carries,
and it is not among the roots returned by buildCommentTree. -/
theorem buildCommentTree_orphan_not_root :
    ([0, 1].map (fun p => (orphanHeap p).ID)).Nodup ∧
    (1 : Ptr) ∈ [0, 1] ∧
    (orphanHeap 1).ParentID = some "zz" ∧
    (∀ q ∈ [0, 1], (orphanHeap q).ID ≠ "zz") ∧
    1 ∉ (buildCommentTree orphanHeap [0, 1]).1 := by
  decide

theorem sortedByCreatedAt_congr (h h' : Heap) (l : List Ptr)
    (hfield : ∀ p, (h' p).CreatedAt = (h p).CreatedAt) :
    SortedByCreatedAt h' l ↔ SortedByCreatedAt h l := by
  unfold SortedByCreatedAt
  simp only [hfield]

theorem SortedByCreatedAt.sublist {h : Heap} {l l' : List Ptr} (hs : SortedByCreatedAt h l)
    (hsub : l'.Sublist l) : SortedByCreatedAt h l' :=
  List.Pairwise.sublist hsub hs

/-- C9: for a flat list of comments with pairwise distinct IDs, buildCommentTree
returns as roots the comments with a nil or empty ParentID in input order, and
leaves in the Replies of every comment of the list exactly the input comments
whose non-empty ParentID is that comment's ID, in input order; the Replies hold
the very cells of the list, so the nesting is transitive, and no other cell is
touched. When the input is in ascending CreatedAt order, so are the root list
and every Replies list. -/
theorem buildCommentTree_forest (h : Heap) (comments : List Ptr)
    (hid : (comments.map (fun p => (h p).ID)).Nodup)
    (hflat : ∀ p ∈ comments, (h p).Replies = []) :
    (buildCommentTree h comments).1 = comments.filter (fun c => isRootComment (h c)) ∧
    (∀ p ∈ comments, (buildCommentTree h comments).2 p =
      { h p with Replies := comments.filter (fun c => isReplyTo (h c) (h p).ID) }) ∧
    (∀ p, p ∉ comments → (buildCommentTree h comments).2 p = h p) ∧
    (SortedByCreatedAt h comments →
      SortedByCreatedAt (buildCommentTree h comments).2 (buildCommentTree h comments).1 ∧
      ∀ p ∈ comments,
        SortedByCreatedAt (buildCommentTree h comments).2
          ((buildCommentTree h comments).2 p).Replies) := by
  have hrep : ∀ p ∈ comments, (buildCommentTree h comments).2 p =
      { h p with Replies := comments.filter (fun c => isReplyTo (h c) (h p).ID) } := by
    intro p hp
    have hf : comments.filter (fun c => attachesTo (indexComments h comments) h p c) =
        comments.filter (fun c => isReplyTo (h c) (h p).ID) := by
      apply List.filter_congr
      intro c _
      rw [attachesTo_indexComments h comments hid p c]
      simp [hp]
    rw [buildCommentTree_snd, hflat p hp, List.nil_append, hf]
  refine ⟨buildCommentTree_fst h comments, hrep, fun p hp => ?_, fun hs => ⟨?_, fun p hp => ?_⟩⟩
  · rw [buildCommentTree_snd]
    have : comments.filter (fun c => attachesTo (indexComments h comments) h p c) = [] := by
      rw [List.filter_eq_nil_iff]
      intro c _ ha
      exact hp (attachesTo_mem h comments p c ha)
    rw [this, List.append_nil]
  · rw [sortedByCreatedAt_congr h _ _ (buildCommentTree_createdAt h comments),
      buildCommentTree_fst]
    exact hs.sublist (List.filter_sublist _)
  · rw [sortedByCreatedAt_congr h _ _ (buildCommentTree_createdAt h comments), hrep p hp]
    exact hs.sublist (List.filter_sublist _)

/-- Witness for C9: the thread example, where "c" replies to "b" and "b" to
"a". -/
theorem buildCommentTree_forest_witness :
    ([0, 1, 2, 3].map (fun p => (threadHeap p).ID)).Nodup ∧
    (∀ p ∈ [0, 1, 2, 3], (threadHeap p).Replies = []) ∧
    SortedByCreatedAt threadHeap [0, 1, 2, 3] ∧
    (buildCommentTree threadHeap [0, 1, 2, 3]).1 = [0, 3] ∧
    ((buildCommentTree threadHeap [0, 1, 2, 3]).2 0).Replies = [1] ∧
    ((buildCommentTree threadHeap [0, 1, 2, 3]).2 1).Replies = [2] ∧
    SortedByCreatedAt (buildCommentTree threadHeap [0, 1, 2, 3]).2
      (buildCommentTree threadHeap [0, 1, 2, 3]).1 := by
  have hid : ([0, 1, 2, 3].map (fun p => (threadHeap p).ID)).Nodup := by decide
  have hflat : ∀ p ∈ [0, 1, 2, 3], (threadHeap p).Replies = [] := by decide
  have hs : SortedByCreatedAt threadHeap [0, 1, 2, 3] := by decide
  obtain ⟨h1, h2, _, h4⟩ := buildCommentTree_forest threadHeap [0, 1, 2, 3] hid hflat
  refine ⟨hid, hflat, hs, ?_, ?_, ?_, (h4 hs).1⟩
  · rw [h1]; decide
  · rw [h2 0 (by decide)]; decide
  · rw [h2 1 (by decide)]; decide

/-- The scenario of the spec, as a client sees it: the thread example comes
back as the root "a" carrying "b" carrying "c", next to the root "d". -/
theorem buildCommentTree_thread_readback :
    ((buildCommentTree threadHeap [0, 1, 2, 3]).1.mapM
        (readback (buildCommentTree threadHeap [0, 1, 2, 3]).2 4)) =
      some [CommentNode.mk "a" "p" none "u" "x" "1"
              [CommentNode.mk "b" "p" (some "a") "u" "x" "2"
                [CommentNode.mk "c" "p" (some "b") "u" "x" "3" []]],
            CommentNode.mk "d" "p" (some "") "u" "x" "4" []] := by
  rfl

/-! ## paginateComments -/

theorem paginateComments_step_found (h : Heap) (cur : String) (cs acc : List Ptr) :
    cs.foldl (paginateComments.step h cur) (acc, true) = (acc ++ cs, true) := by
  induction cs generalizing acc with
  | nil => simp
  | cons c cs ih =>
    rw [List.foldl_cons]
    have : paginateComments.step h cur (acc, true) c = (acc ++ [c], true) := by
      simp [paginateComments.step]
    rw [this, ih]
    simp

theorem paginateComments_step_absent (h : Heap) (cur : String) (cs acc : List Ptr)
    (habs : ∀ q ∈ cs, (h q).ID ≠ cur) :
    cs.foldl (paginateComments.step h cur) (acc, false) = (acc, false) := by
  induction cs with
  | nil => simp
  | cons c cs ih =>
    rw [List.foldl_cons]
    have hc : (h c).ID ≠ cur := habs c (List.mem_cons_self _ _)
    have : paginateComments.step h cur (acc, false) c = (acc, false) := by
      simp [paginateComments.step, hc]
    rw [this]
    exact ih (fun q hq => habs q (List.mem_cons_of_mem _ hq))

theorem paginateComments_step_split (h : Heap) (cur : String) (front back : List Ptr) (c : Ptr)
    (habs : ∀ q ∈ front, (h q).ID ≠ cur) (hc : (h c).ID = cur) :
    (front ++ c :: back).foldl (paginateComments.step h cur) ([], false) = (back, true) := by
  rw [List.foldl_append, paginateComments_step_absent h cur front [] habs, List.foldl_cons]
  have : paginateComments.step h cur ([], false) c = ([], true) := by
    simp [paginateComments.step, hc]
  rw [this, paginateComments_step_found]
  simp

theorem paginateComments_truncate (l : List Ptr) (limit : Int) (hl : 0 ≤ limit) :
    (if (l.length : Int) > limit then sliceTo l limit else some l) =
      some (l.take limit.toNat) := by
  by_cases hlen : (l.length : Int) > limit
  · have h1 : ¬ limit < 0 := not_lt.mpr hl
    have h2 : ¬ (l.length : Int) < limit := not_lt.mpr (le_of_lt hlen)
    simp [hlen, sliceTo, h1, h2]
  · have : l.length ≤ limit.toNat := by omega
    simp [hlen, List.take_of_length_le this]

theorem paginateComments_no_cursor (h : Heap) (xs : List Ptr) (limit : Int) (hl : 0 ≤ limit) :
    paginateComments h xs limit none = some (xs.take limit.toNat) := by
  unfold paginateComments
  exact paginateComments_truncate xs limit hl

theorem paginateComments_after (h : Heap) (front back : List Ptr) (c : Ptr) (limit : Int)
    (hl : 0 ≤ limit) (hid : ((front ++ c :: back).map (fun p => (h p).ID)).Nodup)
    (hne : (h c).ID ≠ "") :
    paginateComments h (front ++ c :: back) limit (some (h c).ID) =
      some (back.take limit.toNat) := by
  have habs : ∀ q ∈ front, (h q).ID ≠ (h c).ID := by
    intro q hq heq
    rw [List.map_append, List.map_cons] at hid
    have := (List.nodup_append.mp hid).2.2
    exact this (List.mem_map_of_mem (fun p => (h p).ID) hq)
      (by show (h q).ID ∈ _; rw [heq]; exact List.mem_cons_self _ _)
  unfold paginateComments
  simp only [ne_eq, hne, not_false_eq_true, if_true,
    paginateComments_step_split h (h c).ID front back c habs rfl]
  exact paginateComments_truncate back limit hl

theorem take_append_drop_length {α : Type} (t : Nat) (l : List α) :
    l.take t ++ l.drop (l.take t).length = l := by
  rw [List.length_take]
  by_cases ht : t ≤ l.length
  · rw [Nat.min_eq_left ht, List.take_append_drop]
  · have : l.length ≤ t := by omega
    rw [Nat.min_eq_right this, List.drop_length, List.take_of_length_le this, List.append_nil]

theorem collectPages_suffix (h : Heap) (xs : List Ptr) (L : Int) (hL : 1 ≤ L)
    (hid : (xs.map (fun p => (h p).ID)).Nodup) (hne : ∀ p ∈ xs, (h p).ID ≠ "") :
    ∀ (fuel : Nat) (front back : List Ptr) (cursor : Option String),
      xs = front ++ back →
      paginateComments h xs L cursor = some (back.take L.toNat) →
      back.length < fuel →
      collectPages h xs L fuel cursor = some back := by
  intro fuel
  induction fuel with
  | zero => intro front back cursor _ _ hf; omega
  | succ fuel ih =>
    intro front back cursor hxs hpage hf
    unfold collectPages
    rw [hpage]
    have ht : 1 ≤ L.toNat := by omega
    cases hp : back.take L.toNat with
    | nil =>
      have : back = [] := by
        cases back with
        | nil => rfl
        | cons b bs =>
          obtain ⟨t, htt⟩ : ∃ t, L.toNat = t + 1 := ⟨L.toNat - 1, by omega⟩
          rw [htt, List.take_succ_cons] at hp
          exact absurd hp (List.cons_ne_nil _ _)
      simp [this]
    | cons p page =>
      simp only []
      have hnil : p :: page ≠ [] := List.cons_ne_nil _ _
      have hsplit : p :: page = (p :: page).dropLast ++ [(p :: page).getLast hnil] :=
        (List.dropLast_append_getLast hnil).symm
      have hback : back = (p :: page) ++ back.drop (p :: page).length := by
        have := take_append_drop_length L.toNat back
        rw [hp] at this
        exact this.symm
      have hxs2 : xs = (front ++ (p :: page).dropLast) ++
          (p :: page).getLast hnil :: back.drop (p :: page).length := by
        rw [hxs]
        conv_lhs => rw [hback, hsplit]
        simp
      have hlast : (p :: page).getLast hnil ∈ xs := by
        rw [hxs2]; simp
      have hnext : paginateComments h xs L (some (h ((p :: page).getLast hnil)).ID) =
          some ((back.drop (p :: page).length).take L.toNat) := by
        conv_lhs => rw [hxs2]
        exact paginateComments_after h _ _ _ L (by omega) (hxs2 ▸ hid) (hne _ hlast)
      have hxs3 : xs = (front ++ (p :: page)) ++ back.drop (p :: page).length := by
        rw [hxs]
        conv_lhs => rw [hback]
        simp
      have hlen : (back.drop (p :: page).length).length < fuel := by
        have hge : (p :: page).length ≤ back.length := by
          rw [← hp, List.length_take]; exact Nat.min_le_right _ _
        have hpos : 1 ≤ (p :: page).length := by simp
        rw [List.length_drop]
        omega
      rw [ih _ _ _ hxs3 hnext hlen]
      simp only [Option.map_some']
      exact congrArg some hback.symm

/-- C2: for a list xs with pairwise distinct non-empty IDs and a limit L >= 1,
paginateComments without a cursor returns the first min(L, |xs|) elements of
xs; with the ID of an element of xs as cursor it returns the next
min(L, remaining) elements after that element; and the pages obtained by
passing each page's last ID as the next cursor, up to the first empty page,
concatenate to exactly xs. -/
theorem paginateComments_pages (h : Heap) (xs : List Ptr) (L : Int) (hL : 1 ≤ L)
    (hid : (xs.map (fun p => (h p).ID)).Nodup) (hne : ∀ p ∈ xs, (h p).ID ≠ "") :
    paginateComments h xs L none = some (xs.take L.toNat) ∧
    (xs.take L.toNat).length = min L.toNat xs.length ∧
    (∀ (front back : List Ptr) (c : Ptr), xs = front ++ c :: back →
      paginateComments h xs L (some (h c).ID) = some (back.take L.toNat) ∧
      (back.take L.toNat).length = min L.toNat back.length) ∧
    collectPages h xs L (xs.length + 1) none = some xs := by
  have h0 : paginateComments h xs L none = some (xs.take L.toNat) :=
    paginateComments_no_cursor h xs L (by omega)
  refine ⟨h0, List.length_take _ _, fun front back c hxs => ⟨?_, List.length_take _ _⟩, ?_⟩
  · subst hxs
    exact paginateComments_after h front back c L (by omega) hid
      (hne c (by simp))
  · exact collectPages_suffix h xs L hL hid hne (xs.length + 1) [] xs none rfl h0
      (Nat.lt_succ_self _)

/-- Witness for C2: the scenario of the spec, three comments and the limit 2;
the first page is the first two, the page after the cursor "b" is the third,
and the pages concatenate to the whole list. -/
theorem paginateComments_pages_witness :
    (1 : Int) ≤ 2 ∧
    ([0, 1, 2].map (fun p => (threadHeap p).ID)).Nodup ∧
    (∀ p ∈ [0, 1, 2], (threadHeap p).ID ≠ "") ∧
    paginateComments threadHeap [0, 1, 2] 2 none = some [0, 1] ∧
    paginateComments threadHeap [0, 1, 2] 2 (some "b") = some [2] ∧
    collectPages threadHeap [0, 1, 2] 2 4 none = some [0, 1, 2] := by
  have hL : (1 : Int) ≤ 2 := by decide
  have hid : ([0, 1, 2].map (fun p => (threadHeap p).ID)).Nodup := by decide
  have hne : ∀ p ∈ [0, 1, 2], (threadHeap p).ID ≠ "" := by decide
  obtain ⟨h1, _, h2, h3⟩ := paginateComments_pages threadHeap [0, 1, 2] 2 hL hid hne
  exact ⟨hL, hid, hne, h1, (h2 [0] [2] 1 rfl).1, h3⟩

theorem paginateComments_cursor_absent (h : Heap) (comments : List Ptr) (limit : Int)
    (hl : 0 ≤ limit) (cursor : String) (hne : cursor ≠ "")
    (habs : ∀ c ∈ comments, (h c).ID ≠ cursor) :
    paginateComments h comments limit (some cursor) = some [] := by
  unfold paginateComments
  simp only [ne_eq, hne, not_false_eq_true, if_true,
    paginateComments_step_absent h cursor comments [] habs]
  rw [paginateComments_truncate [] limit hl]
  simp

/-- C7 (failing input): with the limit -1 and the cursor "nope", which is the
ID of no comment, paginateComments does not return the empty list: the slice
expression `comments[:limit]` is evaluated on the empty filtered list with a
negative bound and panics, and so does GetCommentsForPost. -/
theorem paginateComments_cursor_absent_negative_limit :
    (∀ c ∈ [0, 1, 2, 3], (threadHeap c).ID ≠ "nope") ∧
    paginateComments threadHeap [0, 1, 2, 3] (-1) (some "nope") = none ∧
    (InMemoryRepository.GetCommentsForPost insertionSort threadVisit emptyMemory "p1" (-1)
      (some "nope")).isNone = true := by
  refine ⟨by decide, by decide, by rfl⟩

/-! ## InMemoryRepository.AddComment -/

/-- C6: when postID resolves to a stored post with CommentsDisabled = true,
AddComment with non-empty authorID and content fails with the
comments-disabled error whatever the parentID, and the store (its posts and
comments maps) is the one it was called on. -/
theorem InMemoryRepository.AddComment_comments_disabled (s : InMemoryRepository)
    (postID : String) (post : Post) (parentID : Option String) (authorID content : String)
    (id createdAt : String) (hpost : mapIndex s.posts postID = some post)
    (hdis : post.CommentsDisabled = true) (ha : authorID ≠ "") (hc : content ≠ "") :
    s.AddComment postID parentID authorID content id createdAt =
      (.error "comments are disabled for this post", s) := by
  unfold InMemoryRepository.AddComment
  simp [ha, hc, hpost, hdis]

/-- Witness for C6: a reply to a comment that does not exist, sent to the
locked post "p1". -/
theorem InMemoryRepository.AddComment_comments_disabled_witness :
    mapIndex lockedStore.posts "p1" =
      some { ID := "p1", Title := "t", Content := "c", AuthorID := "u", CreatedAt := "t0",
             CommentsDisabled := true, Comments := [] } ∧
    lockedStore.AddComment "p1" (some "c9") "u" "hello" "c1" "t1" =
      (.error "comments are disabled for this post", lockedStore) :=
  ⟨by decide,
   InMemoryRepository.AddComment_comments_disabled lockedStore "p1" _ (some "c9") "u" "hello"
     "c1" "t1" rfl rfl (by decide) (by decide)⟩

theorem InMemoryRepository.AddComment_parent_not_found (s : InMemoryRepository)
    (postID : String) (post : Post) (parentID authorID content : String)
    (id createdAt : String) (hpost : mapIndex s.posts postID = some post)
    (hen : post.CommentsDisabled = false) (ha : authorID ≠ "") (hc : content ≠ "")
    (hpar : mapIndex s.comments parentID = none) :
    s.AddComment postID (some parentID) authorID content id createdAt =
      (.error "comments parenID is not found", s) := by
  unfold InMemoryRepository.AddComment
  simp [ha, hc, hpost, hen, hpar]

/-- C3 (failing input): on a database holding the post "p1" with comments
enabled and no comment at all, PostgresRepository.AddComment with the parentID
"ghost" returns the new comment and a nil error, and the comments table holds
the new row with its dangling parentID; InMemoryRepository.AddComment refuses
the same call. -/
theorem PostgresRepository.AddComment_dangling_parent :
    onePostDatabase.comments = [] ∧
    (onePostDatabase.AddComment emptyMemory "p1" (some "ghost") "u" "hi" "c1" "t1").1 =
      .ok { ID := "c1", PostID := "p1", ParentID := some "ghost", AuthorID := "u",
            Content := "hi", CreatedAt := "t1" } ∧
    (onePostDatabase.AddComment emptyMemory "p1" (some "ghost") "u" "hi" "c1" "t1").2.1.comments =
      [{ ID := "c1", PostID := "p1", ParentID := some "ghost", AuthorID := "u",
         Content := "hi", CreatedAt := "t1" }] ∧
    ((NewInMemoryRepository.CreatePost "t" "c" "u" false "p1" "t0").2.AddComment
        "p1" (some "ghost") "u" "hi" "c1" "t1").1 =
      .error "comments parenID is not found" := by
  refine ⟨rfl, rfl, rfl, rfl⟩

/-! ## Reachable states of the in-memory store -/

/-- The parent links of a store are closed: every stored comment sits under
its own ID, and when its ParentID is set a comment is stored under that ID. -/
theorem InMemoryRepository.Reachable.parents_stored {s : InMemoryRepository}
    (hs : InMemoryRepository.Reachable s) :
    ∀ k c, mapIndex s.comments k = some c →
      c.ID = k ∧ ∀ pid, c.ParentID = some pid → (mapIndex s.comments pid).isSome = true := by
  induction hs with
  | init => intro k c hk; simp [NewInMemoryRepository, mapIndex] at hk
  | createPost s title content authorID commentsDisabled id createdAt _ ih =>
    have : (s.CreatePost title content authorID commentsDisabled id createdAt).2.comments =
        s.comments := by
      unfold InMemoryRepository.CreatePost
      split_ifs <;> rfl
    rw [this]
    exact ih
  | addComment s postID parentID authorID content id createdAt _ ih =>
    unfold InMemoryRepository.AddComment
    by_cases ha : authorID = ""
    · simpa [ha] using ih
    by_cases hc : content = ""
    · simpa [ha, hc] using ih
    cases hpost : mapIndex s.posts postID with
    | none => simpa [ha, hc, hpost] using ih
    | some post =>
      by_cases hdis : post.CommentsDisabled = true
      · simpa [ha, hc, hpost, hdis] using ih
      by_cases hpar : parentID.any (fun pid => (mapIndex s.comments pid).isNone) = true
      · simpa [ha, hc, hpost, hdis, hpar] using ih
      simp only [ha, hc, hpost, hdis, hpar, if_false, Bool.false_eq_true]
      intro k c hk
      rw [mapIndex_mapAssign] at hk
      have hkeep : ∀ pid, (mapIndex s.comments pid).isSome = true →
          (mapIndex (mapAssign s.comments id
            { ID := id, PostID := postID, ParentID := parentID, AuthorID := authorID,
              Content := content, CreatedAt := createdAt }) pid).isSome = true := by
        intro pid hp
        rw [mapIndex_mapAssign]
        split_ifs
        · rfl
        · exact hp
      by_cases hid : id = k
      · rw [if_pos hid] at hk
        cases hk
        refine ⟨hid, fun pid hpid => hkeep pid ?_⟩
        simp only at hpid
        subst hpid
        simp only [Option.any_some] at hpar
        cases hm : mapIndex s.comments pid with
        | none => simp [hm] at hpar
        | some _ => rfl
      · rw [if_neg hid] at hk
        exact ⟨(ih k c hk).1, fun pid hpid => hkeep pid ((ih k c hk).2 pid hpid)⟩

/-- C4 (as amended): in every state of the in-memory store reachable from the
empty store by CreatePost and AddComment calls, every stored comment whose
ParentID is set has a stored parent comment, that is a stored comment whose ID
is that ParentID. -/
theorem InMemoryRepository.Reachable.parent_exists (s : InMemoryRepository)
    (hs : InMemoryRepository.Reachable s) (k : String) (c : Comment)
    (hk : mapIndex s.comments k = some c) (pid : String) (hpid : c.ParentID = some pid) :
    ∃ parent, mapIndex s.comments pid = some parent ∧ parent.ID = pid := by
  have h1 := (hs.parents_stored k c hk).2 pid hpid
  cases hm : mapIndex s.comments pid with
  | none => simp [hm] at h1
  | some parent => exact ⟨parent, rfl, (hs.parents_stored pid parent hm).1⟩

theorem crossPostStore_reachable : InMemoryRepository.Reachable crossPostStore :=
  .addComment _ _ _ _ _ _ _ (.addComment _ _ _ _ _ _ _
    (.createPost _ _ _ _ _ _ _ (.createPost _ _ _ _ _ _ _ .init)))

/-- Witness for C4 (as amended): the comment "c2" of the cross-post store and
its parent "c1". -/
theorem InMemoryRepository.Reachable.parent_exists_witness :
    InMemoryRepository.Reachable crossPostStore ∧
    mapIndex crossPostStore.comments "c2" =
      some { ID := "c2", PostID := "p2", ParentID := some "c1", AuthorID := "u",
             Content := "b", CreatedAt := "t3" } ∧
    ∃ parent, mapIndex crossPostStore.comments "c1" = some parent ∧ parent.ID = "c1" :=
  ⟨crossPostStore_reachable, by decide,
   InMemoryRepository.Reachable.parent_exists crossPostStore crossPostStore_reachable "c2" _
     rfl "c1" rfl⟩

/-- C4 (counterexample): the store reached by creating the posts "p1" and "p2",
commenting "c1" on "p1" and then adding to "p2" a comment "c2" with parent
"c1" holds "c2" with PostID "p2" and ParentID "c1", while the only comment
stored under the ID "c1" has PostID "p1". -/
theorem InMemoryRepository.Reachable.cross_post_parent :
    InMemoryRepository.Reachable crossPostStore ∧
    mapIndex crossPostStore.comments "c2" =
      some { ID := "c2", PostID := "p2", ParentID := some "c1", AuthorID := "u",
             Content := "b", CreatedAt := "t3" } ∧
    mapIndex crossPostStore.comments "c1" =
      some { ID := "c1", PostID := "p1", ParentID := none, AuthorID := "u",
             Content := "a", CreatedAt := "t2" } ∧
    crossPostStore.comments.map (fun e => e.2.ID) = ["c2", "c1"] := by
  refine ⟨?_, by decide, by decide, by decide⟩
  exact .addComment _ _ _ _ _ _ _ (.addComment _ _ _ _ _ _ _
    (.createPost _ _ _ _ _ _ _ (.createPost _ _ _ _ _ _ _ .init)))

/-! ## InMemoryRepository.GetPostByID -/

/-- C5 (failing input): for the post "p1" of the thread store, whose comments
are "c1", the reply "c2" to "c1" and the reply "c3" to "c2", GetPostByID
succeeds but attaches three top-level entries, the replies "c2" and "c3"
among them, and the copy of "c2" under "c1" carries no replies although "c3"
replies to it; for an unknown id it fails with "post not found". -/
theorem InMemoryRepository.GetPostByID_thread :
    threadVisit.Perm (threadStore.comments.map Prod.snd) ∧
    InMemoryRepository.GetPostByID.forest threadStore threadVisit (fun _ => threadVisit)
        emptyMemory "p1" =
      some [CommentNode.mk "c1" "p1" none "u" "a" "t1"
              [CommentNode.mk "c2" "p1" (some "c1") "u" "b" "t2" []],
            CommentNode.mk "c2" "p1" (some "c1") "u" "b" "t2"
              [CommentNode.mk "c3" "p1" (some "c2") "u" "c" "t3" []],
            CommentNode.mk "c3" "p1" (some "c2") "u" "c" "t3" []] ∧
    (threadStore.GetPostByID threadVisit (fun _ => threadVisit) emptyMemory "p9").1 =
      .error "post not found" := by
  refine ⟨by decide, by rfl, by rfl⟩

/-! ## String order and sort.Slice -/

theorem strLess_iff (a b : String) : strLess a b = true ↔ a < b := by
  simp [strLess, String.lt_iff_toList_lt]

theorem strLessEq_iff (a b : String) : strLessEq a b = true ↔ a ≤ b := by
  unfold strLessEq
  rw [Bool.not_eq_true', ← Bool.not_eq_true, strLess_iff, not_lt]

theorem strLess_eq_false_iff (a b : String) : strLess a b = false ↔ b ≤ a := by
  rw [← Bool.not_eq_true, strLess_iff, not_lt]

theorem lessCreatedAt_total (h : Heap) (a b : Ptr) :
    lessCreatedAt h a b = false ∨ lessCreatedAt h b a = false := by
  unfold lessCreatedAt
  rw [strLess_eq_false_iff, strLess_eq_false_iff]
  exact le_total _ _

theorem lessCreatedAt_trans (h : Heap) (a b c : Ptr) (hba : lessCreatedAt h b a = false)
    (hcb : lessCreatedAt h c b = false) : lessCreatedAt h c a = false := by
  unfold lessCreatedAt at *
  rw [strLess_eq_false_iff] at *
  exact le_trans hba hcb

theorem insertionSort_sink_perm (less : Ptr → Ptr → Bool) (x : Ptr) (l : List Ptr) :
    (insertionSort.sink less x l).Perm (x :: l) := by
  induction l with
  | nil => exact List.Perm.refl _
  | cons y rest ih =>
    unfold insertionSort.sink
    split_ifs
    · exact (List.Perm.cons y ih).trans (List.Perm.swap x y rest)
    · exact List.Perm.refl _

theorem insertionSort_sink_sorted (less : Ptr → Ptr → Bool)
    (htotal : ∀ a b, less a b = false ∨ less b a = false)
    (htrans : ∀ a b c, less b a = false → less c b = false → less c a = false)
    (x : Ptr) (l : List Ptr) (hl : l.Pairwise (fun a b => less a b = false)) :
    (insertionSort.sink less x l).Pairwise (fun a b => less a b = false) := by
  induction l with
  | nil => simp [insertionSort.sink]
  | cons y rest ih =>
    rw [List.pairwise_cons] at hl
    unfold insertionSort.sink
    by_cases hxy : less x y = true
    · rw [if_pos hxy, List.pairwise_cons]
      refine ⟨fun z hz => ?_, ih hl.2⟩
      rcases List.mem_cons.mp ((insertionSort_sink_perm less x rest).mem_iff.mp hz) with hzx | hzr
      · subst hzx
        rcases htotal z y with h1 | h1
        · rw [h1] at hxy; exact absurd hxy (by decide)
        · exact h1
      · exact hl.1 z hzr
    · rw [if_neg hxy, List.pairwise_cons]
      have hxy' : less x y = false := by simpa using hxy
      refine ⟨fun z hz => ?_, List.pairwise_cons.mpr hl⟩
      rcases List.mem_cons.mp hz with hzy | hzr
      · subst hzy; exact hxy'
      · exact htrans z y x (hl.1 z hzr) hxy'

theorem insertionSort_foldl (less : Ptr → Ptr → Bool) (l acc : List Ptr) :
    (l.foldl (fun sorted x => insertionSort.sink less x sorted) acc).Perm (l ++ acc) ∧
    ((∀ a b, less a b = false ∨ less b a = false) →
      (∀ a b c, less b a = false → less c b = false → less c a = false) →
      acc.Pairwise (fun a b => less a b = false) →
      (l.foldl (fun sorted x => insertionSort.sink less x sorted) acc).Pairwise
        (fun a b => less a b = false)) := by
  induction l generalizing acc with
  | nil => exact ⟨List.Perm.refl _, fun _ _ hacc => hacc⟩
  | cons x l ih =>
    rw [List.foldl_cons]
    refine ⟨?_, fun htotal htrans hacc => ?_⟩
    · refine (ih _).1.trans ?_
      refine (List.Perm.append_left l (insertionSort_sink_perm less x acc)).trans ?_
      exact List.perm_middle
    · exact (ih _).2 htotal htrans (insertionSort_sink_sorted less htotal htrans x acc hacc)

/-- The insertion sort of the standard library honours the contract of
`sort.Slice`. -/
theorem insertionSort_contract : SortSliceContract insertionSort := by
  intro less l
  unfold insertionSort
  refine ⟨?_, fun htotal htrans => ?_⟩
  · refine (List.reverse_perm _).trans ?_
    simpa using (insertionSort_foldl less l []).1
  · rw [List.pairwise_reverse]
    exact (insertionSort_foldl less l []).2 htotal htrans List.Pairwise.nil

/-! ## The cursor-filtered list -/

theorem paginateComments_step_dropWhile (h : Heap) (cur : String) (cs acc : List Ptr) :
    (cs.foldl (paginateComments.step h cur) (acc, false)).1 =
      acc ++ (cs.dropWhile (fun c => decide ((h c).ID ≠ cur))).drop 1 := by
  induction cs with
  | nil => simp
  | cons c cs ih =>
    rw [List.foldl_cons]
    by_cases hc : (h c).ID = cur
    · have : paginateComments.step h cur (acc, false) c = (acc, true) := by
        simp [paginateComments.step, hc]
      rw [this, paginateComments_step_found]
      simp [List.dropWhile_cons, hc]
    · have : paginateComments.step h cur (acc, false) c = (acc, false) := by
        simp [paginateComments.step, hc]
      rw [this, ih]
      simp [List.dropWhile_cons, hc]

theorem paginateComments_eq (h : Heap) (cs : List Ptr) (limit : Int) (cursor : Option String) :
    paginateComments h cs limit cursor =
      if ((afterCursor h cs cursor).length : Int) > limit then
        sliceTo (afterCursor h cs cursor) limit
      else some (afterCursor h cs cursor) := by
  unfold paginateComments afterCursor
  cases cursor with
  | none => rfl
  | some cur =>
    by_cases hc : cur = ""
    · simp [hc]
    · simp only [ne_eq, hc, not_false_eq_true, if_true, paginateComments_step_dropWhile,
        List.nil_append]

theorem afterCursor_sublist (h : Heap) (cs : List Ptr) (cursor : Option String) :
    (afterCursor h cs cursor).Sublist cs := by
  unfold afterCursor
  cases cursor with
  | none => exact List.Sublist.refl _
  | some cur =>
    show (if cur ≠ "" then _ else _ : List Ptr).Sublist cs
    split_ifs
    · exact (List.drop_sublist _ _).trans (List.dropWhile_sublist _)
    · exact List.Sublist.refl _

theorem paginateComments_of_nonneg (h : Heap) (cs : List Ptr) (limit : Int) (hl : 0 ≤ limit)
    (cursor : Option String) :
    paginateComments h cs limit cursor = some ((afterCursor h cs cursor).take limit.toNat) := by
  rw [paginateComments_eq]
  exact paginateComments_truncate _ limit hl

theorem paginateComments_sublist (h : Heap) (cs : List Ptr) (limit : Int)
    (cursor : Option String) (page : List Ptr)
    (hp : paginateComments h cs limit cursor = some page) : page.Sublist cs := by
  rw [paginateComments_eq] at hp
  have hsub := afterCursor_sublist h cs cursor
  split_ifs at hp
  · unfold sliceTo at hp
    split_ifs at hp
    cases hp
    exact (List.take_sublist _ _).trans hsub
  · cases hp
    exact hsub

/-! ## InMemoryRepository.GetCommentsForPost -/

theorem GetCommentsForPost_collect (postID : String) (visit : List Comment) (mem : Memory) :
    (visit.foldl (InMemoryRepository.GetCommentsForPost.collect postID) ([], mem)).1.map
        (visit.foldl (InMemoryRepository.GetCommentsForPost.collect postID) ([], mem)).2.heap =
      (visit.filter (fun c => decide (c.PostID = postID))).map (fun c => c.withReplies []) ∧
    ∀ p ∈ (visit.foldl (InMemoryRepository.GetCommentsForPost.collect postID) ([], mem)).1,
      p < (visit.foldl (InMemoryRepository.GetCommentsForPost.collect postID) ([], mem)).2.next := by
  induction visit using List.reverseRecOn with
  | nil => simp
  | append_singleton visit c ih =>
    rw [List.foldl_append, List.foldl_cons, List.foldl_nil]
    generalize visit.foldl (InMemoryRepository.GetCommentsForPost.collect postID) ([], mem) = r
      at ih
    obtain ⟨ih1, ih2⟩ := ih
    unfold InMemoryRepository.GetCommentsForPost.collect
    by_cases hc : c.PostID = postID
    · simp only [hc, if_true, Memory.new, List.filter_append, List.map_append]
      refine ⟨?_, fun p hp => ?_⟩
      · have hold : r.1.map (r.2.heap.store r.2.next (c.withReplies [])) = r.1.map r.2.heap := by
          apply List.map_congr_left
          intro p hp
          have := ih2 p hp
          simp [Heap.store, Nat.ne_of_lt this]
        rw [hold, ih1]
        simp [Heap.store, hc]
      · rcases List.mem_append.mp hp with h1 | h1
        · exact Nat.lt_succ_of_lt (ih2 p h1)
        · simp only [List.mem_singleton] at h1
          rw [h1]; exact Nat.lt_succ_self _
    · simp only [hc, if_false, List.filter_append, List.map_append]
      refine ⟨?_, ih2⟩
      rw [ih1]
      simp [hc]

/-- C8: for every store, every order in which its comments map is visited,
every postID, limit >= 0 and cursor, and every sorting routine that honours
the contract of sort.Slice, the flat list that GetCommentsForPost hands to
buildCommentTree exists (no panic), holds only copies of stored comments whose
PostID is the postID, and is in ascending CreatedAt order: the CreatedAt of
each element is less than or equal to that of every later one, the next one
in particular. -/
theorem InMemoryRepository.GetCommentsForPost_page_sorted
    (sortSlice : (Ptr → Ptr → Bool) → List Ptr → List Ptr) (hsort : SortSliceContract sortSlice)
    (s : InMemoryRepository) (visit : List Comment)
    (hvisit : visit.Perm (s.comments.map Prod.snd)) (mem : Memory) (postID : String)
    (limit : Int) (hl : 0 ≤ limit) (cursor : Option String) :
    ∃ page mem',
      InMemoryRepository.GetCommentsForPost.page sortSlice visit mem postID limit cursor =
        some (page, mem') ∧
      (∀ p ∈ page, (mem'.heap p).PostID = postID ∧
        ∃ c ∈ s.comments.map Prod.snd, mem'.heap p = c.withReplies []) ∧
      SortedByCreatedAt mem'.heap page ∧
      (∀ i (hi : i + 1 < page.length),
        (mem'.heap page[i]).CreatedAt ≤ (mem'.heap page[i + 1]).CreatedAt) := by
  unfold InMemoryRepository.GetCommentsForPost.page
  obtain ⟨hcells, _⟩ := GetCommentsForPost_collect postID visit mem
  generalize visit.foldl (InMemoryRepository.GetCommentsForPost.collect postID) ([], mem) = r
    at hcells
  obtain ⟨hperm, hsorted⟩ := hsort (lessCreatedAt r.2.heap) r.1
  have hsorted := hsorted (lessCreatedAt_total r.2.heap) (lessCreatedAt_trans r.2.heap)
  have hpage := paginateComments_of_nonneg r.2.heap (sortSlice (lessCreatedAt r.2.heap) r.1)
    limit hl cursor
  have hsub := paginateComments_sublist _ _ _ _ _ hpage
  have hs : SortedByCreatedAt r.2.heap
      ((afterCursor r.2.heap (sortSlice (lessCreatedAt r.2.heap) r.1) cursor).take
        limit.toNat) := by
    refine List.Pairwise.sublist hsub (hsorted.imp ?_)
    intro a b hab
    simpa [strLessEq, lessCreatedAt] using hab
  refine ⟨_, r.2, by simp only [hpage, Option.map_some'], fun p hp => ?_, hs, fun i hi => ?_⟩
  · have hp1 : p ∈ r.1 := hperm.mem_iff.mp (hsub.subset hp)
    have hp2 : r.2.heap p ∈ r.1.map r.2.heap := List.mem_map_of_mem _ hp1
    rw [hcells] at hp2
    obtain ⟨c, hc1, hc2⟩ := List.mem_map.mp hp2
    rw [List.mem_filter] at hc1
    refine ⟨?_, c, hvisit.mem_iff.mp hc1.1, hc2.symm⟩
    rw [← hc2]
    simpa [Comment.withReplies] using hc1.2
  · rw [← strLessEq_iff]
    exact List.pairwise_iff_getElem.mp hs i (i + 1) (by omega) hi (Nat.lt_succ_self i)

/-- Witness for C8: the thread store visited in creation order, sorted by the
insertion sort of the standard library, with the limit 2 and no cursor. -/
theorem InMemoryRepository.GetCommentsForPost_page_sorted_witness :
    SortSliceContract insertionSort ∧
    threadVisit.Perm (threadStore.comments.map Prod.snd) ∧
    (0 : Int) ≤ 2 ∧
    ∃ page mem',
      InMemoryRepository.GetCommentsForPost.page insertionSort threadVisit emptyMemory "p1" 2
        none = some (page, mem') ∧
      (∀ p ∈ page, (mem'.heap p).PostID = "p1" ∧
        ∃ c ∈ threadStore.comments.map Prod.snd, mem'.heap p = c.withReplies []) ∧
      SortedByCreatedAt mem'.heap page ∧
      (∀ i (hi : i + 1 < page.length),
        (mem'.heap page[i]).CreatedAt ≤ (mem'.heap page[i + 1]).CreatedAt) :=
  ⟨insertionSort_contract, by decide, by decide,
   InMemoryRepository.GetCommentsForPost_page_sorted insertionSort insertionSort_contract
     threadStore threadVisit (by decide) emptyMemory "p1" 2 (by decide) none⟩

theorem afterCursor_map (h : Heap) (cs : List Ptr) (cursor : Option String) :
    (afterCursor h cs cursor).map h =
      match cursor with
      | none => cs.map h
      | some cur =>
        if cur ≠ "" then ((cs.map h).dropWhile (fun c => decide (c.ID ≠ cur))).drop 1
        else cs.map h := by
  unfold afterCursor
  cases cursor with
  | none => rfl
  | some cur =>
    by_cases hc : cur = ""
    · simp [hc]
    · simp only [ne_eq, hc, not_false_eq_true, if_true, List.map_drop, List.dropWhile_map]
      rfl

theorem paginateComments_map_congr (h₁ h₂ : Heap) (cs₁ cs₂ : List Ptr)
    (hcells : cs₁.map h₁ = cs₂.map h₂) (limit : Int) (cursor : Option String) :
    (paginateComments h₁ cs₁ limit cursor).map (List.map h₁) =
      (paginateComments h₂ cs₂ limit cursor).map (List.map h₂) := by
  have hafter : (afterCursor h₁ cs₁ cursor).map h₁ = (afterCursor h₂ cs₂ cursor).map h₂ := by
    rw [afterCursor_map, afterCursor_map, hcells]
  have hlen : (afterCursor h₁ cs₁ cursor).length = (afterCursor h₂ cs₂ cursor).length := by
    have := congrArg List.length hafter
    simpa using this
  rw [paginateComments_eq, paginateComments_eq, hlen]
  by_cases hgt : ((afterCursor h₂ cs₂ cursor).length : Int) > limit
  · rw [if_pos hgt, if_pos hgt]
    unfold sliceTo
    rw [hlen]
    by_cases hneg : limit < 0
    · simp [hneg]
    · have hle : ¬ ((afterCursor h₂ cs₂ cursor).length : Int) < limit := by omega
      simp only [hneg, hle, if_false, Option.map_some']
      rw [List.map_take, List.map_take, hafter]
  · rw [if_neg hgt, if_neg hgt]
    simp only [Option.map_some', hafter]

theorem GetCommentsForPost_sorted_cells
    (sortSlice : (Ptr → Ptr → Bool) → List Ptr → List Ptr) (hsort : SortSliceContract sortSlice)
    (visit : List Comment) (mem : Memory) (postID : String) :
    ((sortSlice
        (lessCreatedAt
          (visit.foldl (InMemoryRepository.GetCommentsForPost.collect postID) ([], mem)).2.heap)
        (visit.foldl (InMemoryRepository.GetCommentsForPost.collect postID) ([], mem)).1).map
      (visit.foldl (InMemoryRepository.GetCommentsForPost.collect postID) ([], mem)).2.heap).Perm
      ((visit.filter (fun c => decide (c.PostID = postID))).map (fun c => c.withReplies [])) ∧
    ((sortSlice
        (lessCreatedAt
          (visit.foldl (InMemoryRepository.GetCommentsForPost.collect postID) ([], mem)).2.heap)
        (visit.foldl (InMemoryRepository.GetCommentsForPost.collect postID) ([], mem)).1).map
      (visit.foldl (InMemoryRepository.GetCommentsForPost.collect postID) ([], mem)).2.heap).Pairwise
      (fun a b => a.CreatedAt ≤ b.CreatedAt) := by
  obtain ⟨hcells, _⟩ := GetCommentsForPost_collect postID visit mem
  generalize visit.foldl (InMemoryRepository.GetCommentsForPost.collect postID) ([], mem) = r
    at hcells
  obtain ⟨hperm, hsorted⟩ := hsort (lessCreatedAt r.2.heap) r.1
  have hsorted := hsorted (lessCreatedAt_total r.2.heap) (lessCreatedAt_trans r.2.heap)
  refine ⟨hcells ▸ hperm.map r.2.heap, ?_⟩
  rw [List.pairwise_map]
  refine hsorted.imp ?_
  intro a b hab
  unfold lessCreatedAt at hab
  exact (strLess_eq_false_iff _ _).mp hab

/-- The part of the determinism of the flat page that the code does keep: when
the stored comments of the post have pairwise distinct CreatedAt values, the
flat page GetCommentsForPost computes is determined by the stored set of
comments alone: any two orders of visiting the comments map, with any two
sorting routines that honour the contract of sort.Slice and any two memories
to allocate in, give the same page (the same cells in the same order, or a
panic in both). -/
theorem InMemoryRepository.GetCommentsForPost_page_deterministic
    (sortSlice₁ sortSlice₂ : (Ptr → Ptr → Bool) → List Ptr → List Ptr)
    (hsort₁ : SortSliceContract sortSlice₁) (hsort₂ : SortSliceContract sortSlice₂)
    (s : InMemoryRepository) (visit₁ visit₂ : List Comment)
    (hvisit₁ : visit₁.Perm (s.comments.map Prod.snd))
    (hvisit₂ : visit₂.Perm (s.comments.map Prod.snd))
    (mem₁ mem₂ : Memory) (postID : String) (limit : Int) (cursor : Option String)
    (hdistinct : (((s.comments.map Prod.snd).filter (fun c => decide (c.PostID = postID))).map
      (fun c => c.CreatedAt)).Nodup) :
    InMemoryRepository.GetCommentsForPost.pageCells sortSlice₁ visit₁ mem₁ postID limit cursor =
      InMemoryRepository.GetCommentsForPost.pageCells sortSlice₂ visit₂ mem₂ postID limit
        cursor := by
  obtain ⟨hp₁, hs₁⟩ := GetCommentsForPost_sorted_cells sortSlice₁ hsort₁ visit₁ mem₁ postID
  obtain ⟨hp₂, hs₂⟩ := GetCommentsForPost_sorted_cells sortSlice₂ hsort₂ visit₂ mem₂ postID
  unfold InMemoryRepository.GetCommentsForPost.pageCells
    InMemoryRepository.GetCommentsForPost.page
  generalize visit₁.foldl (InMemoryRepository.GetCommentsForPost.collect postID) ([], mem₁) = r₁
    at hp₁ hs₁
  generalize visit₂.foldl (InMemoryRepository.GetCommentsForPost.collect postID) ([], mem₂) = r₂
    at hp₂ hs₂
  have hstored : ∀ (visit : List Comment), visit.Perm (s.comments.map Prod.snd) →
      ((visit.filter (fun c => decide (c.PostID = postID))).map (fun c => c.withReplies [])).Perm
        (((s.comments.map Prod.snd).filter (fun c => decide (c.PostID = postID))).map
          (fun c => c.withReplies [])) :=
    fun visit hv => (hv.filter _).map _
  have hperm : ((sortSlice₁ (lessCreatedAt r₁.2.heap) r₁.1).map r₁.2.heap).Perm
      ((sortSlice₂ (lessCreatedAt r₂.2.heap) r₂.1).map r₂.2.heap) :=
    (hp₁.trans (hstored visit₁ hvisit₁)).trans ((hp₂.trans (hstored visit₂ hvisit₂)).symm)
  have hnodup : (((sortSlice₁ (lessCreatedAt r₁.2.heap) r₁.1).map r₁.2.heap).map
      (fun c => c.CreatedAt)).Nodup := by
    have hpm := ((hp₁.trans (hstored visit₁ hvisit₁)).map (fun c => c.CreatedAt))
    rw [hpm.nodup_iff, List.map_map]
    exact hdistinct
  have hcells : (sortSlice₁ (lessCreatedAt r₁.2.heap) r₁.1).map r₁.2.heap =
      (sortSlice₂ (lessCreatedAt r₂.2.heap) r₂.1).map r₂.2.heap := by
    refine List.Perm.eq_of_sorted ?_ hs₁ hs₂ hperm
    intro a b ha hb hab hba
    exact List.inj_on_of_nodup_map hnodup ha (hperm.mem_iff.mpr hb) (le_antisymm hab hba)
  have key := paginateComments_map_congr r₁.2.heap r₂.2.heap _ _ hcells limit cursor
  simpa only [Option.map_map, Function.comp_def] using key

/-- An instance of the determinism under distinct CreatedAt values: the thread
store, whose comments carry the CreatedAt values "t1", "t2" and "t3", visited
in creation order and in the reverse order. -/
theorem InMemoryRepository.GetCommentsForPost_page_deterministic_witness :
    SortSliceContract insertionSort ∧
    threadVisit.Perm (threadStore.comments.map Prod.snd) ∧
    threadVisit.reverse.Perm (threadStore.comments.map Prod.snd) ∧
    (((threadStore.comments.map Prod.snd).filter (fun c => decide (c.PostID = "p1"))).map
      (fun c => c.CreatedAt)).Nodup ∧
    InMemoryRepository.GetCommentsForPost.pageCells insertionSort threadVisit emptyMemory "p1" 2
        none =
      InMemoryRepository.GetCommentsForPost.pageCells insertionSort threadVisit.reverse
        emptyMemory "p1" 2 none :=
  ⟨insertionSort_contract, by decide, by decide, by decide,
   InMemoryRepository.GetCommentsForPost_page_deterministic insertionSort insertionSort
     insertionSort_contract insertionSort_contract threadStore threadVisit threadVisit.reverse
     (by decide) (by decide) emptyMemory emptyMemory "p1" 2 none (by decide)⟩

/-- C10 (failing input): the store holds the comments "a" and "b" of the post
"p1" with the same CreatedAt. Visiting the comments map as "a", "b" gives the
flat page "a", "b"; visiting it as "b", "a" gives the flat page "b", "a", so
the page is not determined by the stored set, and in the second the tied
comments are not in ascending ID order. Cursor paging over the two visits
loses a comment: the first page with the limit 1 is "a" under the first
visit, and the page after the cursor "a" is empty under the second, so "b" is
never delivered. The slice has two elements, on which sort.Slice runs its
insertion sort. -/
theorem InMemoryRepository.GetCommentsForPost_page_tie :
    tieVisit.Perm (tieStore.comments.map Prod.snd) ∧
    tieVisit.reverse.Perm (tieStore.comments.map Prod.snd) ∧
    (InMemoryRepository.GetCommentsForPost.pageCells insertionSort tieVisit emptyMemory "p1" 10
        none).map (List.map (fun c => (c.ID, c.CreatedAt))) =
      some [("a", "t1"), ("b", "t1")] ∧
    (InMemoryRepository.GetCommentsForPost.pageCells insertionSort tieVisit.reverse emptyMemory
        "p1" 10 none).map (List.map (fun c => (c.ID, c.CreatedAt))) =
      some [("b", "t1"), ("a", "t1")] ∧
    (InMemoryRepository.GetCommentsForPost.pageCells insertionSort tieVisit emptyMemory "p1" 1
        none).map (List.map (fun c => c.ID)) = some ["a"] ∧
    (InMemoryRepository.GetCommentsForPost.pageCells insertionSort tieVisit.reverse emptyMemory
        "p1" 1 (some "a")).map (List.map (fun c => c.ID)) = some [] := by
  refine ⟨by decide, by decide, by decide, by decide, by decide, by decide⟩

theorem InMemoryRepository.GetCommentsForPost_cursor_absent
    (sortSlice : (Ptr → Ptr → Bool) → List Ptr → List Ptr) (hsort : SortSliceContract sortSlice)
    (visit : List Comment) (mem : Memory) (postID : String) (limit : Int) (hl : 0 ≤ limit)
    (cursor : String) (hne : cursor ≠ "") (habs : ∀ c ∈ visit, c.ID ≠ cursor) :
    ∃ mem', InMemoryRepository.GetCommentsForPost sortSlice visit mem postID limit (some cursor) =
      some (.ok [], mem') := by
  unfold InMemoryRepository.GetCommentsForPost InMemoryRepository.GetCommentsForPost.page
  obtain ⟨hcells, _⟩ := GetCommentsForPost_collect postID visit mem
  generalize visit.foldl (InMemoryRepository.GetCommentsForPost.collect postID) ([], mem) = r
    at hcells
  have hids : ∀ p ∈ sortSlice (lessCreatedAt r.2.heap) r.1, (r.2.heap p).ID ≠ cursor := by
    intro p hp
    have hp1 : p ∈ r.1 := (hsort (lessCreatedAt r.2.heap) r.1).1.mem_iff.mp hp
    have hp2 : r.2.heap p ∈ r.1.map r.2.heap := List.mem_map_of_mem _ hp1
    rw [hcells] at hp2
    obtain ⟨c, hc1, hc2⟩ := List.mem_map.mp hp2
    rw [← hc2]
    exact habs c (List.mem_filter.mp hc1).1
  simp only [paginateComments_cursor_absent r.2.heap _ limit hl cursor hne hids,
    Option.map_some']
  exact ⟨_, rfl⟩

/-! ## buildCommentHierarchy against buildCommentTree -/

theorem buildCommentHierarchy_step_eq (m : GoMap Ptr) (acc : List Ptr × Heap) (c : Ptr)
    (hc : (acc.2 c).ParentID ≠ some "") :
    buildCommentHierarchy.step m acc c = buildCommentTree.step m acc c := by
  unfold buildCommentHierarchy.step buildCommentTree.step
  cases hp : (acc.2 c).ParentID with
  | none => rfl
  | some pid =>
    have hne : pid ≠ "" := fun e => hc (by rw [hp, e])
    simp [hne]

theorem buildCommentHierarchy_foldl (m : GoMap Ptr) (h : Heap) (cs : List Ptr)
    (hcs : ∀ c ∈ cs, (h c).ParentID ≠ some "") :
    cs.foldl (buildCommentHierarchy.step m) ([], h) =
      cs.foldl (buildCommentTree.step m) ([], h) := by
  induction cs using List.reverseRecOn with
  | nil => rfl
  | append_singleton cs c ih =>
    rw [List.foldl_append, List.foldl_append,
      ih (fun q hq => hcs q (List.mem_append_left _ hq)), List.foldl_cons, List.foldl_cons,
      List.foldl_nil, List.foldl_nil]
    apply buildCommentHierarchy_step_eq
    rw [(buildCommentTree_foldl m h cs).2 c]
    exact hcs c (List.mem_append_right _ (List.mem_singleton_self c))

/-- The two tree builders return the same roots and leave the same heap on
every list in which no ParentID is the empty string. -/
theorem buildCommentHierarchy_eq_buildCommentTree (h : Heap) (comments : List Ptr)
    (hcs : ∀ c ∈ comments, (h c).ParentID ≠ some "") :
    buildCommentHierarchy h comments = buildCommentTree h comments :=
  buildCommentHierarchy_foldl (indexComments h comments) h comments hcs

/-- C11 (failing input): on the flat list "a", "b" (reply to "a"), "c" (reply
to "b"), "d" (ParentID the empty string), whose IDs are pairwise distinct,
buildCommentTree returns the roots "a" and "d" while buildCommentHierarchy
returns the root "a" only and attaches "d" nowhere. Such a row is stored by
PostgresRepository.AddComment called with the empty string as parentID, after
which PostgresRepository.GetPostByID returns the post without that comment. -/
theorem buildCommentHierarchy_empty_parent :
    ([0, 1, 2, 3].map (fun p => (threadHeap p).ID)).Nodup ∧
    (∀ p ∈ [0, 1, 2, 3], (threadHeap p).Replies = []) ∧
    (buildCommentTree threadHeap [0, 1, 2, 3]).1 = [0, 3] ∧
    (buildCommentHierarchy threadHeap [0, 1, 2, 3]).1 = [0] ∧
    [0, 1, 2, 3].map (fun p => ((buildCommentHierarchy threadHeap [0, 1, 2, 3]).2 p).Replies) =
      [[1], [2], [], []] ∧
    (onePostDatabase.AddComment emptyMemory "p1" (some "") "u" "hi" "c1" "t1").2.1.comments =
      [{ ID := "c1", PostID := "p1", ParentID := some "", AuthorID := "u", Content := "hi",
         CreatedAt := "t1" }] ∧
    ((onePostDatabase.AddComment emptyMemory "p1" (some "") "u" "hi" "c1" "t1").2.1.GetPostByID
        emptyMemory "p1").1 =
      .ok (some { ID := "p1", Title := "t", Content := "c", AuthorID := "u", CreatedAt := "t0",
                  CommentsDisabled := false, Comments := [] }) := by
  refine ⟨by decide, by decide, by decide, by decide, by decide, rfl, rfl⟩

/-! ## The bounds of the slice in paginateComments -/

theorem paginateComments_negative_limit (h : Heap) (comments : List Ptr) (limit : Int)
    (hl : limit < 0) (cursor : Option String) :
    paginateComments h comments limit cursor = none := by
  rw [paginateComments_eq]
  have hgt : ((afterCursor h comments cursor).length : Int) > limit := by omega
  rw [if_pos hgt]
  unfold sliceTo
  rw [if_pos hl]

theorem paginateComments_within_bounds (h : Heap) (comments : List Ptr) (limit : Int)
    (hl : 0 ≤ limit) (cursor : Option String) :
    ∃ page, paginateComments h comments limit cursor = some page ∧
      page <+: afterCursor h comments cursor ∧ (page.length : Int) ≤ limit := by
  refine ⟨_, paginateComments_of_nonneg h comments limit hl cursor, List.take_prefix _ _, ?_⟩
  have := List.length_take_le limit.toNat (afterCursor h comments cursor)
  omega

theorem queryResolver_limitInt_nonneg (limit : Option Int) (hl : ∀ l, limit = some l → 0 ≤ l) :
    0 ≤ queryResolver.Comments.limitInt limit := by
  unfold queryResolver.Comments.limitInt
  cases limit with
  | none => simp
  | some l =>
    have := hl l rfl
    simp only []
    split_ifs <;> omega

/-- C12 (failing input): the limit -1 is an int32 that the Comments resolver
passes through unchanged, and with it paginateComments does not return a
prefix of the cursor-filtered list: `comments[:limit]` is evaluated with the
bound -1 and panics, whatever the list and the cursor, so the resolver call
on the in-memory store panics as well. -/
theorem queryResolver.Comments_negative_limit :
    (-(2 : Int) ^ 31 ≤ -1 ∧ (-1 : Int) < 2 ^ 31) ∧
    queryResolver.Comments.limitInt (some (-1)) = -1 ∧
    paginateComments threadHeap [0, 1, 2, 3] (-1) none = none ∧
    paginateComments threadHeap [] (-1) (some "a") = none ∧
    (queryResolver.Comments
      (InMemoryRepository.GetCommentsForPost insertionSort threadVisit emptyMemory) "p1"
      (some (-1)) none).isNone = true := by
  refine ⟨by decide, by decide, by decide, by decide, by rfl⟩

end Forozon
